import Mathlib

/-!
Verification of the rngcheck crate: NIST SP 800-22 Monobit and Block
Frequency tests (`src/nist.rs`) and the bit-sequence adapters
(`src/helpers.rs`).

Floating-point values (`f32`) are embedded symbolically: an `F32`
expression records exactly the operations the Rust code performs
(literals, casts from integers, the four arithmetic operations,
`libm::sqrtf`, `libm::erfcf`, `libm::powf`, and the `special` crate's
regularized lower incomplete gamma).  The one place the numeric value
of an `f32` influences control flow is the threshold comparison
`p >= 0.01`; it is abstracted as a Bool-valued parameter `ge`, matching
IEEE-754 `>=` which is total, returns a Bool, and returns `false`
whenever either argument is NaN.  All structural claims are proved for
every such comparison function.
-/

set_option maxRecDepth 8192

namespace Rngcheck

/-- Symbolic 32-bit floating point expression: one constructor per f32
operation the Rust source performs. -/
inductive F32 where
  | lit : ℚ → F32
  | ofNat : Nat → F32
  | ofInt : Int → F32
  | add : F32 → F32 → F32
  | sub : F32 → F32 → F32
  | mul : F32 → F32 → F32
  | div : F32 → F32 → F32
  | sqrt : F32 → F32
  | erfc : F32 → F32
  | powf : F32 → F32 → F32
  | igamma : F32 → F32 → F32
deriving DecidableEq

/-- Exact rational evaluation of the arithmetic fragment of an `F32`
expression (`none` on the transcendental operations and on division by
an exact zero).  Used to state that particular argument expressions
have exact value 0, a value on which IEEE-754 f32 arithmetic agrees
with exact rational arithmetic. -/
def F32.evalQ : F32 → Option ℚ
  | .lit q => some q
  | .ofNat n => some (n : ℚ)
  | .ofInt i => some (i : ℚ)
  | .add a b =>
    match a.evalQ, b.evalQ with
    | some x, some y => some (x + y)
    | _, _ => none
  | .sub a b =>
    match a.evalQ, b.evalQ with
    | some x, some y => some (x - y)
    | _, _ => none
  | .mul a b =>
    match a.evalQ, b.evalQ with
    | some x, some y => some (x * y)
    | _, _ => none
  | .div a b =>
    match a.evalQ, b.evalQ with
    | some x, some y => if y = 0 then none else some (x / y)
    | _, _ => none
  | .sqrt _ => none
  | .erfc _ => none
  | .powf _ _ => none
  | .igamma _ _ => none

/-- Test errors (`Error` in `src/lib.rs`). -/
inductive Error where
  | RngFailed
  | InsufficientSampleSize : Nat → Error
  | BadPValue : F32 → Error
deriving DecidableEq

/-! ## Bit sequence adapters (`src/helpers.rs`) -/

/-- State of `BitIter`: the byte buffer (bytes as naturals), the byte
index `i` and the bit index `j`. -/
structure BitIter where
  buff : List Nat
  i : Nat
  j : Nat
deriving DecidableEq

/-- Constructor `BitIter::new`. -/
def BitIter.new (buff : List Nat) : BitIter :=
  { buff := buff, i := 0, j := 0 }

/-- One step of the iterator (`BitIter::next`): if data remains, fetch
bit `j` of byte `i` as `d[i] & (1 << j) != 0` and advance `(i, j)`. -/
def BitIter.next (s : BitIter) : Option (Bool × BitIter) :=
  if s.buff.length ≤ s.i then
    none
  else
    let v := (s.buff.getD s.i 0) &&& (1 <<< s.j) != 0
    if s.j < 7 then
      some (v, { s with j := s.j + 1 })
    else
      some (v, { s with i := s.i + 1, j := 0 })

/-- Full drain of a `BitIter`: the list of all bits it yields. -/
def BitIter.toList (s : BitIter) : List Bool :=
  match h : s.next with
  | none => []
  | some (b, s') => b :: s'.toList
termination_by 9 * (s.buff.length - s.i) - min s.j 8
decreasing_by
  unfold BitIter.next at h
  split at h
  · exact absurd h (by simp)
  · split at h <;>
    · injection h with h'
      injection h' with hb hs
      subst hs
      simp only []
      omega

/-- State of `BitsFromRng`: the external random source is modelled as
the stream `words` of its successive 32-bit outputs, with `idx` the
number of `next_u32` invocations performed so far. -/
structure BitsFromRng where
  words : Nat → Nat
  idx : Nat
  remaining : Nat
  buffer : Nat
  buffered : Nat

/-- Constructor `BitsFromRng::new`. -/
def BitsFromRng.new (words : Nat → Nat) (items : Nat) : BitsFromRng :=
  { words := words, idx := 0, remaining := items, buffer := 0, buffered := 0 }

/-- One step of the iterator (`BitsFromRng::next`): if `remaining = 0`
end; otherwise refill the 32-bit buffer from the source when empty
(`% 2^32` models the `u32` type of `next_u32`), yield `buffer & 1 != 0`
and shift. -/
def BitsFromRng.next (s : BitsFromRng) : Option (Bool × BitsFromRng) :=
  if s.remaining = 0 then
    none
  else
    let s1 :=
      if s.buffered = 0 then
        { s with buffer := s.words s.idx % 2 ^ 32, buffered := 32, idx := s.idx + 1 }
      else s
    some (s1.buffer &&& 1 != 0,
      { s1 with remaining := s.remaining - 1, buffer := s1.buffer >>> 1,
                buffered := s1.buffered - 1 })

/-- Full drain of a `BitsFromRng`: all bits yielded, together with the
final state (whose `idx` counts the `next_u32` invocations). -/
def BitsFromRng.run (s : BitsFromRng) : List Bool × BitsFromRng :=
  match h : s.next with
  | none => ([], s)
  | some (b, s') =>
    let r := s'.run
    (b :: r.1, r.2)
termination_by s.remaining
decreasing_by
  unfold BitsFromRng.next at h
  split at h
  · exact absurd h (by simp)
  · injection h with h'
    injection h' with hb hs
    subst hs
    simp only []
    omega

/-! ## NIST tests (`src/nist.rs`) -/

/-- The `special` crate's `x.inc_gamma(a)`, called as
`nist_igamma(a, x)`: symbolically, the regularized lower incomplete
gamma function P(a, x). -/
def nist_igamma (a x : F32) : F32 :=
  F32.igamma a x

/-- NIST Frequency (Monobit) Test (`nist_freq_monobit`): drain the
sequence summing bits as -1/+1 into `v` and counting them in `n`;
fail `InsufficientSampleSize` below 100 bits; otherwise
`p = erfcf((|v| as f32 / sqrtf(n as f32)) / sqrtf(2.0))`, failing
`BadPValue p` unless `ge p 0.01` (the inverted `!(p >= 0.01)` test of
the source, so a NaN `p` fails). -/
def nist_freq_monobit (ge : F32 → F32 → Bool) (data : List Bool) : Except Error F32 :=
  let vn := data.foldl
    (fun (acc : Int × Nat) d => (if d then acc.1 + 1 else acc.1 - 1, acc.2 + 1))
    (0, 0)
  let v := vn.1
  let n := vn.2
  if n < 100 then
    Except.error (Error.InsufficientSampleSize n)
  else
    let s := F32.div (F32.ofInt |v|) (F32.sqrt (F32.ofNat n))
    let p := F32.erfc (F32.div s (F32.sqrt (F32.lit 2)))
    if !(ge p (F32.lit (1 / 100))) then
      Except.error (Error.BadPValue p)
    else
      Except.ok p

/-- The block loop of `nist_freq_block`: take `block_len` bits as a
block, count bits `block_n` and ones `block_v`; a short block is
discarded and ends the loop; a complete block adds
`powf((block_v as f32 / block_n as f32) - 0.5, 2.0)` to `x2_partial`
and increments `num_blocks`.  The hypothesis `0 < block_len` is the
termination argument (the Rust loop diverges for `block_len = 0`). -/
def blockLoop (block_len : Nat) (hL : 0 < block_len) (data : List Bool)
    (num_blocks : Nat) (x2sum : F32) : Nat × F32 :=
  let block := data.take block_len
  let block_n := block.length
  let block_v := block.countP id
  if h : block_n < block_len then
    (num_blocks, x2sum)
  else
    blockLoop block_len hL (data.drop block_len) (num_blocks + 1)
      (F32.add x2sum
        (F32.powf
          (F32.sub (F32.div (F32.ofNat block_v) (F32.ofNat block_n)) (F32.lit (1 / 2)))
          (F32.lit 2)))
termination_by data.length
decreasing_by
  have hb : block.length = min block_len data.length := by
    have hb' : block = data.take block_len := rfl
    rw [hb', List.length_take]
  have hn : block_n = block.length := rfl
  simp only [List.length_drop]
  omega

/-- NIST Block Frequency Test (`nist_freq_block`): run the block loop,
then `x2 = 4.0 * block_len as f32 * x2_partial`,
`p = 1.0 - nist_igamma(num_blocks as f32 / 2.0, x2 / 2.0)`, failing
`BadPValue p` unless `ge p 0.01` (the inverted `!(p >= 0.01)` test of
the source, so a NaN `p` fails). -/
def nist_freq_block (ge : F32 → F32 → Bool) (data : List Bool)
    (block_len : Nat) (hL : 0 < block_len) : Except Error F32 :=
  let nb := blockLoop block_len hL data 0 (F32.lit 0)
  let x2 := F32.mul (F32.mul (F32.lit 4) (F32.ofNat block_len)) nb.2
  let p := F32.sub (F32.lit 1)
    (nist_igamma (F32.div (F32.ofNat nb.1) (F32.lit 2)) (F32.div x2 (F32.lit 2)))
  if !(ge p (F32.lit (1 / 100))) then
    Except.error (Error.BadPValue p)
  else
    Except.ok p

/-! ## Specification-side definitions -/

/-- The signed running sum of the monobit test: +1 per true bit, -1 per
false bit. -/
def signedSum (data : List Bool) : Int :=
  data.foldl (fun v d => if d then v + 1 else v - 1) 0

/-- The k-th bit (0-based, LSB-first within each byte) of a byte
buffer: bit `k % 8` of byte `k / 8`. -/
def byteBit (B : List Nat) (k : Nat) : Bool :=
  (B.getD (k / 8) 0).testBit (k % 8)

/-- The symbolic per-block contribution
`powf((ones as f32 / block_len as f32) - 0.5, 2.0)` of the k-th
complete block of the sequence. -/
def blockTerm (L : Nat) (data : List Bool) (k : Nat) : F32 :=
  F32.powf
    (F32.sub (F32.div (F32.ofNat (((data.drop (k * L)).take L).countP id)) (F32.ofNat L))
      (F32.lit (1 / 2)))
    (F32.lit 2)

/-- Abstraction relation: the state `s` has consumed exactly `pos`
bits of the word stream `words`: `idx` counts the fetched words, and
the buffer holds the unconsumed high bits of the current word. -/
def RngInv (words : Nat → Nat) (pos : Nat) (s : BitsFromRng) : Prop :=
  s.words = words ∧ s.idx = (pos + 31) / 32 ∧
    (pos % 32 = 0 → s.buffered = 0) ∧
    (pos % 32 ≠ 0 → s.buffered = 32 - pos % 32 ∧
      s.buffer = (words (pos / 32) % 2 ^ 32) >>> (pos % 32))

/-- Modelled from the spec: the regularized lower incomplete gamma
function P(a, x) of §4.2, the contract of the evaluator whose
implementation the crate delegates to the external `special`
dependency behind `nist_igamma` and which is therefore absent from the
repository sources. -/
noncomputable def igammaP (a x : ℝ) : ℝ :=
  (∫ t in (0:ℝ)..x, t ^ (a - 1) * Real.exp (-t)) / Real.Gamma a

/-! ## General helper lemmas -/

/-- Branch-swapping form of the source's inverted comparison
`if !(p >= 0.01) { Err } else { Ok }`. -/
theorem bool_if_not {α : Type} (b : Bool) (x y : α) :
    (if !b then x else y) = (if b then y else x) := by
  cases b <;> rfl

/-- Peeling the first element off a mapped range. -/
theorem map_range_succ {α : Type} (f : Nat → α) (n : Nat) :
    (List.range (n + 1)).map f = f 0 :: (List.range n).map (fun t => f (t + 1)) := by
  rw [List.range_succ_eq_map, List.map_cons, List.map_map]
  rfl

/-- Testing a bit with a masked and, as the source does
(`d[i] & (1 << j) != 0`), is `Nat.testBit`. -/
theorem and_shift_ne (x j : Nat) : (x &&& (1 <<< j) != 0) = x.testBit j := by
  rw [Nat.one_shiftLeft, Nat.and_two_pow]
  cases h : x.testBit j
  · simp
  · simp [Nat.pos_iff_ne_zero]

/-- Testing the low bit with `& 1 != 0` is `Nat.testBit _ 0`. -/
theorem and_one_ne (y : Nat) : (y &&& 1 != 0) = y.testBit 0 := by
  rw [Nat.and_one_is_mod, Nat.testBit_zero]
  have h2 : y % 2 = 0 ∨ y % 2 = 1 := by omega
  rcases h2 with h | h <;> simp [h]

/-! ## Monobit test lemmas -/

/-- The single fold of `nist_freq_monobit` computes the signed sum and
the bit count of the full sequence. -/
theorem monobit_fold (data : List Bool) (v : Int) (n : Nat) :
    data.foldl
        (fun (acc : Int × Nat) d => (if d then acc.1 + 1 else acc.1 - 1, acc.2 + 1))
        (v, n)
      = (data.foldl (fun v d => if d then v + 1 else v - 1) v, n + data.length) := by
  induction data generalizing v n with
  | nil => simp
  | cons b l ih =>
    simp only [List.foldl_cons, ih, List.length_cons, Prod.mk.injEq]
    exact ⟨trivial, by omega⟩

/-- C3: on fewer than 100 bits the monobit test always fails with
`InsufficientSampleSize` carrying the exact bit count, for every
threshold comparison and every bit values. -/
theorem nist_freq_monobit_short (ge : F32 → F32 → Bool) (data : List Bool)
    (h : data.length < 100) :
    nist_freq_monobit ge data =
      Except.error (Error.InsufficientSampleSize data.length) := by
  unfold nist_freq_monobit
  rw [monobit_fold]
  simp only [Nat.zero_add]
  rw [if_pos h]

/-- C3 witness: the empty sequence yields `InsufficientSampleSize 0`. -/
theorem nist_freq_monobit_short_witness :
    ([] : List Bool).length < 100 ∧
      nist_freq_monobit (fun _ _ => true) [] =
        Except.error (Error.InsufficientSampleSize 0) :=
  ⟨by decide, nist_freq_monobit_short (fun _ _ => true) [] (by decide)⟩

/-- C1: on at least 100 bits the monobit test drains the whole
sequence, computes the signed sum S and the symbolic p-value
`erfcf((|S| as f32 / sqrtf(n as f32)) / sqrtf(2.0))`, and returns
`Ok p` exactly when the threshold comparison `ge p 0.01` holds; in
every other case, in particular for a NaN `p` (on which IEEE-754 `>=`
returns false), it returns `Err (BadPValue p)`. -/
theorem nist_freq_monobit_spec (ge : F32 → F32 → Bool) (data : List Bool)
    (h : 100 ≤ data.length) :
    nist_freq_monobit ge data =
      (let p := F32.erfc (F32.div
          (F32.div (F32.ofInt |signedSum data|) (F32.sqrt (F32.ofNat data.length)))
          (F32.sqrt (F32.lit 2)))
       if ge p (F32.lit (1 / 100)) then Except.ok p
       else Except.error (Error.BadPValue p)) := by
  unfold nist_freq_monobit signedSum
  rw [monobit_fold]
  simp only [Nat.zero_add]
  rw [if_neg (by omega), bool_if_not]

/-- C1 witness: 100 one-bits give signed sum 100 and, under a
comparison that accepts everything, the p-value expression succeeds. -/
theorem nist_freq_monobit_spec_witness :
    100 ≤ (List.replicate 100 true).length ∧
      nist_freq_monobit (fun _ _ => true) (List.replicate 100 true) =
        Except.ok (F32.erfc (F32.div
          (F32.div (F32.ofInt 100) (F32.sqrt (F32.ofNat 100)))
          (F32.sqrt (F32.lit 2)))) :=
  ⟨by decide, by
    have h := nist_freq_monobit_spec (fun _ _ => true) (List.replicate 100 true)
      (by decide)
    exact h.trans rfl⟩

/-! ## BitIter lemmas -/

/-- Unfolding `BitIter.toList` on an exhausted iterator. -/
theorem bitIter_toList_of_none {s : BitIter} (h : s.next = none) :
    s.toList = [] := by
  rw [BitIter.toList]
  split
  · rfl
  · rename_i b s' heq
    rw [h] at heq
    cases heq

/-- Unfolding `BitIter.toList` on a productive step. -/
theorem bitIter_toList_of_some {s : BitIter} {b : Bool} {s' : BitIter}
    (h : s.next = some (b, s')) : s.toList = b :: s'.toList := by
  rw [BitIter.toList]
  split
  · rename_i heq
    rw [h] at heq
    cases heq
  · rename_i b2 s2 heq
    rw [h] at heq
    injection heq with heq'
    injection heq' with h1 h2
    rw [h1, h2]

/-- The step `BitIter.next` on a non-exhausted state. -/
theorem bitIter_next_lt {s : BitIter} (hlt : s.i < s.buff.length) :
    s.next = some ((s.buff.getD s.i 0) &&& (1 <<< s.j) != 0,
      if s.j < 7 then { s with j := s.j + 1 } else { s with i := s.i + 1, j := 0 }) := by
  unfold BitIter.next
  rw [if_neg (by omega)]
  by_cases hj : s.j < 7 <;> simp [hj]

/-- Every drain of a `BitIter` state with a legal bit index is the
corresponding segment of LSB-first bits of the buffer. -/
theorem bitIter_toList_formula (buff : List Nat) :
    ∀ (m i j : Nat), j ≤ 7 → 9 * (buff.length - i) - j = m →
      BitIter.toList ⟨buff, i, j⟩ =
        (List.range (8 * (buff.length - i) - j)).map
          (fun t => byteBit buff (8 * i + j + t)) := by
  intro m
  induction m using Nat.strong_induction_on with
  | _ m ih =>
    intro i j hj hm
    by_cases hlen : buff.length ≤ i
    · have hnone : (BitIter.next ⟨buff, i, j⟩) = none := by
        unfold BitIter.next
        rw [if_pos hlen]
      rw [bitIter_toList_of_none hnone]
      have hz : buff.length - i = 0 := by omega
      rw [hz]
      simp
    · have hlt : i < buff.length := by omega
      by_cases hj7 : j < 7
      · have hnext := bitIter_next_lt (s := ⟨buff, i, j⟩) hlt
        rw [if_pos hj7] at hnext
        rw [bitIter_toList_of_some hnext]
        have ihe := ih (9 * (buff.length - i) - (j + 1)) (by omega) i (j + 1)
          (by omega) rfl
        rw [ihe]
        have hsz : 8 * (buff.length - i) - j
            = (8 * (buff.length - i) - (j + 1)) + 1 := by omega
        rw [hsz, map_range_succ]
        congr 1
        · unfold byteBit
          have e1 : (8 * i + j + 0) / 8 = i := by omega
          have e2 : (8 * i + j + 0) % 8 = j := by omega
          rw [e1, e2, and_shift_ne]
        · apply List.map_congr_left
          intro t _
          unfold byteBit
          have e1 : (8 * i + (j + 1) + t) = (8 * i + j + (t + 1)) := by omega
          rw [e1]
      · have hj' : j = 7 := by omega
        subst hj'
        have hnext := bitIter_next_lt (s := ⟨buff, i, 7⟩) hlt
        have h77 : ¬((⟨buff, i, 7⟩ : BitIter).j < 7) := fun hc => Nat.lt_irrefl 7 hc
        rw [if_neg h77] at hnext
        rw [bitIter_toList_of_some hnext]
        have ihe := ih (9 * (buff.length - (i + 1)) - 0) (by omega) (i + 1) 0
          (by omega) rfl
        rw [ihe]
        have hsz : 8 * (buff.length - i) - 7
            = (8 * (buff.length - (i + 1)) - 0) + 1 := by omega
        rw [hsz, map_range_succ]
        congr 1
        · unfold byteBit
          have e1 : (8 * i + 7 + 0) / 8 = i := by omega
          have e2 : (8 * i + 7 + 0) % 8 = 7 := by omega
          rw [e1, e2, and_shift_ne]
        · apply List.map_congr_left
          intro t _
          unfold byteBit
          have e1 : (8 * (i + 1) + 0 + t) = (8 * i + 7 + (t + 1)) := by omega
          rw [e1]

/-- C4: a fresh `BitIter` over buffer B yields exactly `8 * length B`
bits — in particular a zero-length buffer gives the immediately
exhausted (empty) sequence rather than an error — the k-th bit being
bit `k % 8` (LSB first) of byte `k / 8`; the step never mutates the
buffer, so two fresh instances over the same buffer yield identical
sequences. -/
theorem bitIter_bits (B : List Nat)
    (s : BitIter) (b : Bool) (s' : BitIter) (hs : s.next = some (b, s')) :
    (BitIter.new B).toList.length = 8 * B.length ∧
      (∀ k, k < 8 * B.length →
        (BitIter.new B).toList[k]? = some ((B.getD (k / 8) 0).testBit (k % 8))) ∧
      s'.buff = s.buff ∧
      (BitIter.new []).toList = [] := by
  have hnew : BitIter.new B = ⟨B, 0, 0⟩ := rfl
  have hf := bitIter_toList_formula B (9 * (B.length - 0) - 0) 0 0 (by omega) rfl
  simp only [Nat.sub_zero, Nat.mul_zero, Nat.zero_add] at hf
  refine ⟨?_, ?_, ?_, ?_⟩
  · rw [hnew, hf]
    simp
  · intro k hk
    rw [hnew, hf]
    rw [List.getElem?_map, List.getElem?_range hk]
    rfl
  · unfold BitIter.next at hs
    split at hs
    · cases hs
    · split at hs <;>
      · injection hs with h'
        injection h' with h1 h2
        rw [← h2]
  · exact bitIter_toList_of_none (by decide)

/-- C4 witness: the buffer [6] yields 8 bits; bit 0 is false (6 is
even), the first step preserves the buffer, and the empty buffer
yields the empty sequence. -/
theorem bitIter_bits_witness :
    (BitIter.new [6]).next = some (false, ⟨[6], 0, 1⟩) ∧
      ((BitIter.new [6]).toList.length = 8 * [6].length ∧
        (∀ k, k < 8 * [6].length →
          (BitIter.new [6]).toList[k]? = some (([6].getD (k / 8) 0).testBit (k % 8))) ∧
        (⟨[6], 0, 1⟩ : BitIter).buff = (BitIter.new [6]).buff ∧
        (BitIter.new []).toList = []) :=
  ⟨by decide,
    bitIter_bits [6] (BitIter.new [6]) false ⟨[6], 0, 1⟩ (by decide)⟩

/-- C10: `BitIter.next` is total and safe: the initial state satisfies
the invariant `j ≤ 7 ∧ i ≤ length`, every step from an invariant state
preserves it, a bit is only produced when the bounds check `i < length`
succeeded (so the byte access is in range), and the shift amount `j`
used in `1 << j` is at most 7. -/
theorem bitIter_next_safe (B : List Nat) (s : BitIter) (hj : s.j ≤ 7)
    (hi : s.i ≤ s.buff.length) :
    ((BitIter.new B).j ≤ 7 ∧ (BitIter.new B).i ≤ (BitIter.new B).buff.length) ∧
      (∀ b s', s.next = some (b, s') →
        s.i < s.buff.length ∧ s.j ≤ 7 ∧ s'.j ≤ 7 ∧ s'.i ≤ s'.buff.length) ∧
      (s.next = none → s.buff.length ≤ s.i) := by
  refine ⟨⟨by simp [BitIter.new], by simp [BitIter.new]⟩, ?_, ?_⟩
  · intro b s' hs
    unfold BitIter.next at hs
    split at hs
    · cases hs
    · rename_i hlen
      split at hs <;>
      · rename_i hj7
        injection hs with h'
        injection h' with h1 h2
        rw [← h2]
        refine ⟨by omega, hj, ?_, ?_⟩ <;> simp <;> omega
  · intro hs
    unfold BitIter.next at hs
    split at hs
    · rename_i hlen
      exact hlen
    · split at hs <;> cases hs

/-- C10 witness: the fresh state over [3] satisfies the invariant and
its first step is safe. -/
theorem bitIter_next_safe_witness :
    ((BitIter.new [3]).j ≤ 7 ∧ (BitIter.new [3]).i ≤ (BitIter.new [3]).buff.length) ∧
      (((BitIter.new [3]).j ≤ 7 ∧ (BitIter.new [3]).i ≤ (BitIter.new [3]).buff.length) ∧
        (∀ b s', (BitIter.new [3]).next = some (b, s') →
          (BitIter.new [3]).i < (BitIter.new [3]).buff.length ∧
            (BitIter.new [3]).j ≤ 7 ∧ s'.j ≤ 7 ∧ s'.i ≤ s'.buff.length) ∧
        ((BitIter.new [3]).next = none →
          (BitIter.new [3]).buff.length ≤ (BitIter.new [3]).i)) :=
  ⟨⟨by decide, by decide⟩,
    bitIter_next_safe [3] (BitIter.new [3]) (by decide) (by decide)⟩

/-! ## Block frequency test lemmas -/

/-- The block loop processes exactly `length / L` complete blocks
(the trailing partial block is discarded) and accumulates their
contributions left to right. -/
theorem blockLoop_eq (L : Nat) (hL : 0 < L) :
    ∀ (m : Nat) (data : List Bool), data.length = m → ∀ (nb : Nat) (acc : F32),
      blockLoop L hL data nb acc =
        (nb + data.length / L,
         ((List.range (data.length / L)).map (blockTerm L data)).foldl F32.add acc) := by
  intro m
  induction m using Nat.strong_induction_on with
  | _ m ih =>
    intro data hlen nb acc
    rw [blockLoop]
    split
    · rename_i h
      rw [List.length_take] at h
      have hM : data.length / L = 0 := Nat.div_eq_of_lt (by omega)
      rw [hM]
      simp
    · rename_i h
      rw [List.length_take] at h
      have hLle : L ≤ data.length := by omega
      have hTlen : (data.take L).length = L := by
        rw [List.length_take]
        omega
      rw [hTlen]
      rw [ih (data.length - L) (by omega) (data.drop L) (by simp) (nb + 1) _]
      have hdiv : data.length / L = (data.length - L) / L + 1 :=
        Nat.div_eq_sub_div hL hLle
      simp only [List.length_drop]
      rw [hdiv, Prod.mk.injEq]
      refine ⟨by omega, ?_⟩
      rw [map_range_succ, List.foldl_cons]
      have hhead : blockTerm L data 0 =
          F32.powf
            (F32.sub (F32.div (F32.ofNat ((data.take L).countP id)) (F32.ofNat L))
              (F32.lit (1 / 2)))
            (F32.lit 2) := by
        unfold blockTerm
        rw [Nat.zero_mul, List.drop_zero]
      rw [hhead]
      have htail : ∀ t, blockTerm L data (t + 1) = blockTerm L (data.drop L) t := by
        intro t
        unfold blockTerm
        rw [List.drop_drop]
        have harith : L + t * L = (t + 1) * L := by ring
        rw [harith]
      rw [List.map_congr_left (fun t _ => (htail t).symm)]

/-- C2: for every block length L ≥ 1 and every sequence, the block
frequency test consumes the whole sequence in complete L-bit blocks,
discarding the trailing partial block: with `M = length / L` complete
blocks it forms `x2 = 4.0 * L * (sum of powf((ones/L) - 0.5, 2.0))`,
`p = 1 - P(M/2, x2/2)` via the incomplete gamma evaluator, and returns
`Ok p` exactly when the threshold comparison `ge p 0.01` holds,
otherwise `Err (BadPValue p)` (NaN failing under IEEE `>=`). -/
theorem nist_freq_block_spec (ge : F32 → F32 → Bool) (data : List Bool)
    (L : Nat) (hL : 0 < L) :
    nist_freq_block ge data L hL =
      (let M := data.length / L
       let x2p := ((List.range M).map (blockTerm L data)).foldl F32.add (F32.lit 0)
       let x2 := F32.mul (F32.mul (F32.lit 4) (F32.ofNat L)) x2p
       let p := F32.sub (F32.lit 1)
         (nist_igamma (F32.div (F32.ofNat M) (F32.lit 2)) (F32.div x2 (F32.lit 2)))
       if ge p (F32.lit (1 / 100)) then Except.ok p
       else Except.error (Error.BadPValue p)) := by
  unfold nist_freq_block
  rw [blockLoop_eq L hL data.length data rfl 0 (F32.lit 0)]
  simp only [Nat.zero_add]
  rw [bool_if_not]

/-- C2 witness: three bits with block length two give one complete
block of two bits (one of them set); the third bit is discarded, and a
rejecting comparison produces `BadPValue`. -/
theorem nist_freq_block_spec_witness :
    0 < 2 ∧
      nist_freq_block (fun _ _ => false) [true, false, true] 2 (by decide) =
        Except.error (Error.BadPValue (F32.sub (F32.lit 1)
          (nist_igamma (F32.div (F32.ofNat 1) (F32.lit 2))
            (F32.div
              (F32.mul (F32.mul (F32.lit 4) (F32.ofNat 2))
                (F32.add (F32.lit 0)
                  (F32.powf
                    (F32.sub (F32.div (F32.ofNat 1) (F32.ofNat 2)) (F32.lit (1 / 2)))
                    (F32.lit 2))))
              (F32.lit 2))))) :=
  ⟨by decide, by
    have h := nist_freq_block_spec (fun _ _ => false) [true, false, true] 2 (by decide)
    exact h.trans rfl⟩

/-- C6: on a sequence shorter than the block length (M = 0 complete
blocks) the block frequency test is not special-cased: the gamma
evaluator is still invoked, with a shape argument of exact value 0 and
a chi-square argument of exact value 0 (the partial sum is 0.0), and
the ordinary NaN-safe threshold decision on the resulting p determines
the outcome. -/
theorem nist_freq_block_degenerate (ge : F32 → F32 → Bool) (data : List Bool)
    (L : Nat) (hL : 0 < L) (hlen : data.length < L) :
    (nist_freq_block ge data L hL =
      (let p := F32.sub (F32.lit 1)
         (nist_igamma (F32.div (F32.ofNat 0) (F32.lit 2))
           (F32.div (F32.mul (F32.mul (F32.lit 4) (F32.ofNat L)) (F32.lit 0))
             (F32.lit 2)))
       if ge p (F32.lit (1 / 100)) then Except.ok p
       else Except.error (Error.BadPValue p))) ∧
      (F32.div (F32.ofNat 0) (F32.lit 2)).evalQ = some 0 ∧
      (F32.div (F32.mul (F32.mul (F32.lit 4) (F32.ofNat L)) (F32.lit 0))
        (F32.lit 2)).evalQ = some 0 := by
  refine ⟨?_, by norm_num [F32.evalQ], ?_⟩
  · unfold nist_freq_block
    rw [blockLoop_eq L hL data.length data rfl 0 (F32.lit 0)]
    rw [Nat.div_eq_of_lt hlen]
    simp only [List.range_zero, List.map_nil, List.foldl_nil, Nat.add_zero]
    rw [bool_if_not]
  · norm_num [F32.evalQ]

/-- C6 witness: one bit with block length two gives no complete block;
the gamma evaluator is invoked with both argument expressions of exact
value 0 and an accepting comparison yields `Ok`. -/
theorem nist_freq_block_degenerate_witness :
    (0 < 2 ∧ [true].length < 2) ∧
      ((nist_freq_block (fun _ _ => true) [true] 2 (by decide) =
        (let p := F32.sub (F32.lit 1)
           (nist_igamma (F32.div (F32.ofNat 0) (F32.lit 2))
             (F32.div (F32.mul (F32.mul (F32.lit 4) (F32.ofNat 2)) (F32.lit 0))
               (F32.lit 2)))
         if (fun _ _ => true : F32 → F32 → Bool) p (F32.lit (1 / 100)) then Except.ok p
         else Except.error (Error.BadPValue p))) ∧
        (F32.div (F32.ofNat 0) (F32.lit 2)).evalQ = some 0 ∧
        (F32.div (F32.mul (F32.mul (F32.lit 4) (F32.ofNat 2)) (F32.lit 0))
          (F32.lit 2)).evalQ = some 0) :=
  ⟨⟨by decide, by decide⟩,
    nist_freq_block_degenerate (fun _ _ => true) [true] 2 (by decide) (by decide)⟩

/-! ## BitsFromRng lemmas -/

/-- Unfolding `BitsFromRng.run` on an exhausted iterator. -/
theorem rng_run_of_none {s : BitsFromRng} (h : s.next = none) : s.run = ([], s) := by
  rw [BitsFromRng.run]
  split
  · rfl
  · rename_i b s' heq
    rw [h] at heq
    cases heq

/-- Unfolding `BitsFromRng.run` on a productive step. -/
theorem rng_run_of_some {s : BitsFromRng} {b : Bool} {s' : BitsFromRng}
    (h : s.next = some (b, s')) : s.run = (b :: s'.run.1, s'.run.2) := by
  rw [BitsFromRng.run]
  split
  · rename_i heq
    rw [h] at heq
    cases heq
  · rename_i b2 s2 heq
    rw [h] at heq
    injection heq with heq'
    injection heq' with h1 h2
    rw [h1, h2]

/-- One productive step from an abstract position `pos` yields bit
`pos % 32` (LSB first) of word `pos / 32` and advances to `pos + 1`. -/
theorem rng_step (words : Nat → Nat) (pos : Nat) (s : BitsFromRng)
    (hI : RngInv words pos s) (hr : s.remaining ≠ 0) :
    ∃ s', s.next = some ((words (pos / 32)).testBit (pos % 32), s') ∧
      RngInv words (pos + 1) s' ∧ s'.remaining = s.remaining - 1 := by
  obtain ⟨hw, hidx, hb0, hbn⟩ := hI
  unfold BitsFromRng.next
  rw [if_neg hr]
  by_cases hp : pos % 32 = 0
  · have hbuf : s.buffered = 0 := hb0 hp
    have hidx' : s.idx = pos / 32 := by omega
    rw [if_pos hbuf]
    dsimp only
    have hbit : ((s.words s.idx % 2 ^ 32) &&& 1 != 0)
        = (words (pos / 32)).testBit (pos % 32) := by
      rw [hw, hidx', and_one_ne, Nat.testBit_mod_two_pow, hp]
      simp
    rw [hbit]
    refine ⟨_, rfl, ⟨?_, ?_, ?_, ?_⟩, ?_⟩
    · exact hw
    · dsimp only
      omega
    · intro hc
      dsimp only
      omega
    · intro _
      dsimp only
      have h1 : (pos + 1) % 32 = 1 := by omega
      have h2 : (pos + 1) / 32 = pos / 32 := by omega
      constructor
      · omega
      · rw [h1, h2, hw, hidx']
    · dsimp only
  · obtain ⟨hbuffed, hbuffer⟩ := hbn hp
    have hm31 : pos % 32 ≤ 31 := by omega
    rw [if_neg (show ¬s.buffered = 0 by omega)]
    dsimp only
    have hbit : (s.buffer &&& 1 != 0) = (words (pos / 32)).testBit (pos % 32) := by
      rw [hbuffer, and_one_ne, Nat.testBit_shiftRight, Nat.add_zero,
        Nat.testBit_mod_two_pow]
      simp [show pos % 32 < 32 from by omega]
    rw [hbit]
    refine ⟨_, rfl, ⟨?_, ?_, ?_, ?_⟩, ?_⟩
    · exact hw
    · dsimp only
      omega
    · intro hc
      dsimp only
      omega
    · intro hc
      dsimp only
      have h1 : (pos + 1) % 32 = pos % 32 + 1 := by omega
      have h2 : (pos + 1) / 32 = pos / 32 := by omega
      constructor
      · omega
      · rw [h1, h2, hbuffer, Nat.shiftRight_add]
    · dsimp only

/-- Full-drain characterization of `BitsFromRng.run` from any state
related to an abstract position. -/
theorem rng_run_formula (words : Nat → Nat) :
    ∀ (r pos : Nat) (s : BitsFromRng), RngInv words pos s → s.remaining = r →
      s.run.1 = (List.range r).map
          (fun t => (words ((pos + t) / 32)).testBit ((pos + t) % 32)) ∧
        RngInv words (pos + r) s.run.2 ∧ s.run.2.remaining = 0 := by
  intro r
  induction r with
  | zero =>
    intro pos s hI hr
    have hnone : s.next = none := by
      unfold BitsFromRng.next
      rw [if_pos hr]
    rw [rng_run_of_none hnone]
    exact ⟨by simp, by simpa using hI, hr⟩
  | succ r ih =>
    intro pos s hI hr
    obtain ⟨s', hnext, hI', hrem⟩ := rng_step words pos s hI (by omega)
    rw [rng_run_of_some hnext]
    obtain ⟨h1, h2, h3⟩ := ih (pos + 1) s' hI' (by omega)
    refine ⟨?_, ?_, h3⟩
    · dsimp only
      rw [h1, map_range_succ, Nat.add_zero]
      congr 1
      apply List.map_congr_left
      intro t _
      have he : pos + (t + 1) = pos + 1 + t := by omega
      rw [he]
    · have he : pos + (r + 1) = pos + 1 + r := by omega
      rw [he]
      exact h2

/-- C5: a generator-backed sequence requesting k items yields exactly
k bits and ends, the t-th bit being bit `t % 32` (LSB first) of the
source's `t / 32`-th 32-bit output; over the full drain the source's
next-32-bit operation is invoked exactly `ceil(k/32) = (k+31)/32`
times, and every single step fetches a fresh word exactly when no
buffered bits remain (never while bits remain buffered, always before
yielding when none remain). -/
theorem bitsFromRng_bits (words : Nat → Nat) (k : Nat) :
    (BitsFromRng.new words k).run.1 =
        (List.range k).map (fun t => (words (t / 32)).testBit (t % 32)) ∧
      (BitsFromRng.new words k).run.1.length = k ∧
      (BitsFromRng.new words k).run.2.idx = (k + 31) / 32 ∧
      (∀ (s : BitsFromRng) (b : Bool) (s' : BitsFromRng), s.next = some (b, s') →
        s.remaining ≠ 0 ∧ s'.remaining = s.remaining - 1 ∧
          (s.buffered = 0 → s'.idx = s.idx + 1 ∧ s'.buffered = 31 ∧
            b = ((s.words s.idx % 2 ^ 32) &&& 1 != 0)) ∧
          (s.buffered ≠ 0 → s'.idx = s.idx ∧ s'.buffered = s.buffered - 1 ∧
            b = (s.buffer &&& 1 != 0))) := by
  have hI : RngInv words 0 (BitsFromRng.new words k) := by
    refine ⟨rfl, by norm_num [BitsFromRng.new], fun _ => rfl, fun hc => absurd rfl hc⟩
  obtain ⟨h1, h2, h3⟩ := rng_run_formula words k 0 (BitsFromRng.new words k) hI rfl
  simp only [Nat.zero_add] at h1 h2
  refine ⟨h1, by rw [h1]; simp, h2.2.1, ?_⟩
  intro s b s' hs
  unfold BitsFromRng.next at hs
  split at hs
  · cases hs
  · rename_i hr0
    dsimp only at hs
    by_cases hbuf : s.buffered = 0
    · rw [if_pos hbuf] at hs
      injection hs with h'
      injection h' with hb hrec
      refine ⟨hr0, ?_, ?_, fun hc => absurd hbuf hc⟩
      · rw [← hrec]
      · intro _
        rw [← hrec, ← hb]
        exact ⟨rfl, rfl, rfl⟩
    · rw [if_neg hbuf] at hs
      injection hs with h'
      injection h' with hb hrec
      refine ⟨hr0, ?_, fun hc => absurd hc hbuf, ?_⟩
      · rw [← hrec]
      · intro _
        rw [← hrec, ← hb]
        exact ⟨rfl, rfl, rfl⟩

/-- C5 witness: requesting 3 bits from a constant source of 6-words
yields exactly the low three bits of 6, LSB first. -/
theorem bitsFromRng_bits_witness :
    (BitsFromRng.new (fun _ => 6) 3).run.1 = [false, true, true] :=
  ((bitsFromRng_bits (fun _ => 6) 3).1).trans (by decide)

/-! ## Incomplete gamma evaluator (spec model) -/

/-- For shape 1 the regularized lower incomplete gamma function is
`1 - exp (-x)`. -/
theorem igammaP_one (x : ℝ) : igammaP 1 x = 1 - Real.exp (-x) := by
  unfold igammaP
  rw [Real.Gamma_one, div_one]
  have hcong : Set.EqOn (fun t : ℝ => t ^ ((1:ℝ) - 1) * Real.exp (-t))
      (fun t : ℝ => Real.exp (-t)) (Set.uIcc 0 x) := by
    intro t _
    simp [sub_self, Real.rpow_zero, one_mul]
  rw [intervalIntegral.integral_congr hcong]
  rw [intervalIntegral.integral_comp_neg (fun t => Real.exp t)]
  rw [integral_exp]
  simp [Real.exp_zero]

/-- C9: the incomplete gamma evaluator contract: P(1,1) is 0.6321205588
and P(1,2) is 0.8646647167, each within 1e-6. -/
theorem nist_igamma_values :
    |igammaP 1 1 - 0.6321205588| ≤ 1e-6 ∧ |igammaP 1 2 - 0.8646647167| ≤ 1e-6 := by
  have h1 := igammaP_one 1
  have h2 := igammaP_one 2
  have hepos : (0:ℝ) < Real.exp 1 := Real.exp_pos 1
  have hlo : (2.7182818283:ℝ) < Real.exp 1 := Real.exp_one_gt_d9
  have hhi : Real.exp 1 < 2.7182818286 := Real.exp_one_lt_d9
  have he1 : Real.exp (-1 : ℝ) = (Real.exp 1)⁻¹ := by rw [Real.exp_neg]
  have he2 : Real.exp (-2 : ℝ) = (Real.exp 1 * Real.exp 1)⁻¹ := by
    rw [Real.exp_neg, ← Real.exp_add]
    norm_num
  have hinv1 : Real.exp 1 * (Real.exp 1)⁻¹ = 1 := mul_inv_cancel₀ (ne_of_gt hepos)
  have hinvpos1 : (0:ℝ) < (Real.exp 1)⁻¹ := inv_pos.mpr hepos
  have hpos2 : (0:ℝ) < Real.exp 1 * Real.exp 1 := mul_pos hepos hepos
  have hinv2 : (Real.exp 1 * Real.exp 1) * (Real.exp 1 * Real.exp 1)⁻¹ = 1 :=
    mul_inv_cancel₀ (ne_of_gt hpos2)
  have hinvpos2 : (0:ℝ) < (Real.exp 1 * Real.exp 1)⁻¹ := inv_pos.mpr hpos2
  have hsqlo : (2.7182818283:ℝ) * 2.7182818283 < Real.exp 1 * Real.exp 1 := by
    nlinarith
  have hsqhi : Real.exp 1 * Real.exp 1 < (2.7182818286:ℝ) * 2.7182818286 := by
    nlinarith
  constructor
  · rw [h1, he1, abs_le]
    constructor <;> nlinarith
  · rw [h2, he2, abs_le]
    constructor <;> nlinarith

end Rngcheck
